import Mathlib

set_option maxRecDepth 100000

/-!
Verification of the context-pack assembly pipeline of `scripts/pack_context.py`
(the "second brain" note vault).  The Python functions `score_note`,
`expand_links`, `get_recent_notes`, `extract_section` and the candidate
selection / rendering loop of `create_context_pack` are shallowly embedded as
executable Lean definitions operating on an explicit in-memory note model.
Python `set`s become `Finset String`, Python `float` scores become `ℚ`
(all values produced by the scorer are small integers, on which IEEE floats
are exact), `datetime` values become `Int` timestamps measured in days, and
fallible operations (date parsing) return `Option`.
-/

/-! ### Python string primitives

The scorer relies on three Python string operations: `str.lower`,
the containment test `term in s`, and the non-overlapping occurrence counter
`s.count(term)`.  They are modelled on the underlying character lists. -/

/-- Python `str.lower` (ASCII case mapping, which covers the vault's data). -/
def lowerStr (s : String) : String :=
  String.mk (s.data.map Char.toLower)

/-- Containment of `pat` in a character list, as in Python `pat in text`. -/
def listIn (pat : List Char) : List Char → Bool
  | [] => pat.isEmpty
  | c :: rest => List.isPrefixOf pat (c :: rest) || listIn pat rest

/-- Python `pat in s` on strings. -/
def strIn (pat s : String) : Bool :=
  listIn pat.data s.data

/-- Scanner for Python `str.count`: counts non-overlapping occurrences of the
(non-empty) pattern, skipping `skip` positions after a match.  After a match
at a position the scan resumes past the matched pattern, exactly like
CPython's left-to-right non-overlapping scan. -/
def pyCountAux (pat : List Char) : Nat → List Char → Nat
  | _, [] => 0
  | Nat.succ s, _ :: rest => pyCountAux pat s rest
  | 0, c :: rest =>
    if List.isPrefixOf pat (c :: rest) then
      1 + pyCountAux pat (pat.length - 1) rest
    else
      pyCountAux pat 0 rest

/-- Python `s.count(pat)` : number of non-overlapping occurrences of `pat` in
`s`; for the empty pattern Python returns `len(s) + 1`. -/
def pyCount (s pat : String) : Nat :=
  if pat.data.isEmpty then s.data.length + 1
  else pyCountAux pat.data 0 s.data

/-- Python `sep.join(parts)`. -/
def joinSep (sep : String) : List String → String
  | [] => ""
  | [x] => x
  | x :: y :: rest => x ++ sep ++ joinSep sep (y :: rest)

/-! ### Data model

One loaded note, mirroring the dictionary built by `load_notes`
(`pack_context.py` lines 25-40).  The fields irrelevant to the verified
pipeline (`path`, raw `metadata`) are omitted; `rel_path` is kept as the
string that Python would interpolate. -/

/-- A value stored under the `updated` / `created` metadata keys: either an
already-parsed timestamp object (modelled as an `Int` count of days) or a raw
string still to be parsed by `datetime.strptime`. -/
inductive DateVal where
  | dt : Int → DateVal
  | str : String → DateVal
deriving DecidableEq

/-- One entry of a note's `links` metadata list: a record whose `to` key may
be absent (`link.get("to")` then yields `None`). -/
structure Link where
  «to» : Option String
deriving DecidableEq

/-- A loaded note (the dictionary assembled in `load_notes`). -/
structure Note where
  id : Option String
  type : Option String
  title : String
  tags : List String
  links : List Link
  created : Option DateVal
  updated : Option DateVal
  confidence : String
  rel_path : String
  text : String
deriving DecidableEq

/-- Python truthiness of `note["id"]`: a string id is truthy exactly when it
is present and non-empty. -/
def truthyId (note : Note) : Option String :=
  match note.id with
  | some s => if s ≠ "" then some s else none
  | none => none

/-! ### Relevance scorer (`score_note`, lines 55-72) -/

/-- `score_note(note, query_terms)`: title matches weigh `3.0` (flat), every
non-overlapping occurrence in the lowercased `title + "\n" + text`
concatenation weighs `1.0`, and tag-list matches weigh `2.0` (flat).
The three `for` loops of the source accumulate into one running score. -/
def score_note (note : Note) (query_terms : List String) : ℚ :=
  let text := lowerStr (note.title ++ "\n" ++ note.text)
  let title_lower := lowerStr note.title
  let s1 := query_terms.foldl
    (fun acc term => if strIn term title_lower then acc + 3 else acc) 0
  let s2 := query_terms.foldl
    (fun acc term => acc + (pyCount text term : ℚ)) s1
  let tags_str := lowerStr (joinSep " " note.tags)
  query_terms.foldl
    (fun acc term => if strIn term tags_str then acc + 2 else acc) s2

/-! ### Link graph expander (`expand_links`, lines 75-96) -/

/-- The id index `notes_by_id = {n["id"]: n for n in notes if n["id"]}`:
only truthy ids are keyed, and for a duplicated id the later-loaded note
wins (Python dict comprehension semantics). -/
def notesById (notes : List Note) (key : String) : Option Note :=
  (notes.filter (fun n => truthyId n = some key)).getLast?

/-- The truthy `links[*].to` targets of one note (targets failing the
`if target` truthiness test are skipped). -/
def truthyTargets (note : Note) : Finset String :=
  (note.links.filterMap (fun l =>
    match l.«to» with
    | some t => if t ≠ "" then some t else none
    | none => none)).toFinset

/-- The link targets contributed by one frontier id: resolving the id in the
index and following the found note's links; an id absent from the index
contributes nothing (`if not note: continue`). -/
def targetsOf (notes : List Note) (nid : String) : Finset String :=
  match notesById notes nid with
  | none => ∅
  | some note => truthyTargets note

/-- One BFS round: all truthy link targets of the current frontier that are
not yet in the expanded set (the membership test uses the expanded set as it
stood at the start of the round, which is exactly the Python behaviour since
`expanded` is only updated after the inner loops). -/
def nextLayer (notes : List Note) (expanded current : Finset String) : Finset String :=
  current.biUnion (targetsOf notes) \ expanded

/-- The `for _ in range(hops)` loop of `expand_links`: at most `hops` rounds,
each round unions the next layer into the expanded set, and the loop breaks
as soon as a round produces an empty frontier. -/
def expandLoop (notes : List Note) : Nat → Finset String → Finset String → Finset String
  | 0, _, expanded => expanded
  | hops + 1, current, expanded =>
    let next_layer := nextLayer notes expanded current
    if next_layer = ∅ then expanded ∪ next_layer
    else expandLoop notes hops next_layer (expanded ∪ next_layer)

/-- `expand_links(notes, seed_ids, hops)`: breadth-first expansion of the
seed set along outbound links for up to `hops` rounds. -/
def expand_links (notes : List Note) (seed_ids : Finset String) (hops : Nat) : Finset String :=
  expandLoop notes hops seed_ids seed_ids

/-! ### Recency filter (`get_recent_notes`, lines 99-118)

`datetime.strptime(updated, "%Y-%m-%d")` accepts a four-digit year, a one- or
two-digit month `1..12` and a one- or two-digit day that is valid for that
month, with nothing left over; the parsed calendar date is turned into a
rata-die day count so that date comparison is integer comparison. -/

/-- Gregorian leap-year test. -/
def isLeapYear (y : Nat) : Bool :=
  y % 4 == 0 && (y % 100 != 0 || y % 400 == 0)

/-- Number of days of month `m` in year `y`. -/
def daysInMonth (y m : Nat) : Nat :=
  if m = 2 then (if isLeapYear y then 29 else 28)
  else if m = 4 ∨ m = 6 ∨ m = 9 ∨ m = 11 then 30
  else 31

/-- Days in the months strictly before month `m` of year `y`. -/
def daysBeforeMonth (y m : Nat) : Nat :=
  (List.range m).foldl (fun acc k => if k = 0 then acc else acc + daysInMonth y k) 0

/-- Rata-die style day number of the calendar date `y-m-d` (days counted from
the proleptic date 0001-01-01). -/
def toDayNumber (y m d : Nat) : Int :=
  ((365 * (y - 1) + (y - 1) / 4 - (y - 1) / 100 + (y - 1) / 400
    + daysBeforeMonth y m + d : Nat) : Int)

/-- Split a character list on `-` separators (for the `%Y-%m-%d` format). -/
def splitDash : List Char → List (List Char)
  | [] => [[]]
  | c :: rest =>
    if c = '-' then [] :: splitDash rest
    else
      match splitDash rest with
      | [] => [[c]]
      | g :: gs => (c :: g) :: gs

/-- Decimal value of an all-digit character list. -/
def natOfDigits (l : List Char) : Nat :=
  l.foldl (fun n c => 10 * n + (c.toNat - 48)) 0

/-- Whether every character is an ASCII digit. -/
def allDigits (l : List Char) : Bool :=
  l.all (fun c => c.isDigit)

/-- `datetime.strptime(s, "%Y-%m-%d")`, returning a day number on success and
`none` where Python raises `ValueError`: the string must be exactly
`YYYY-M-D` with a four-digit year, a month `1..12` of at most two digits and
a day of at most two digits that exists in that month. -/
def strptimeYMD (s : String) : Option Int :=
  match splitDash s.data with
  | [ys, ms, ds] =>
    if allDigits ys ∧ allDigits ms ∧ allDigits ds
        ∧ ys.length = 4 ∧ 1 ≤ ms.length ∧ ms.length ≤ 2 ∧ 1 ≤ ds.length ∧ ds.length ≤ 2 then
      let y := natOfDigits ys
      let m := natOfDigits ms
      let d := natOfDigits ds
      if 1 ≤ y ∧ 1 ≤ m ∧ m ≤ 12 ∧ 1 ≤ d ∧ d ≤ daysInMonth y m then
        some (toDayNumber y m d)
      else none
    else none
  | _ => none

/-- Python truthiness of a present `updated` value (`if not updated`): a
datetime object is always truthy, a string is truthy when non-empty. -/
def dateTruthy : DateVal → Bool
  | .dt _ => true
  | .str s => s ≠ ""

/-- The `try` block body: a string value goes through `strptime`, anything
else is already a datetime object; a failed parse raises and is swallowed by
the bare `except`. -/
def resolveUpdated : DateVal → Option Int
  | .dt t => some t
  | .str s => strptimeYMD s

/-- The resolvable update timestamp of a note, when it has one. -/
def updatedTime (note : Note) : Option Int :=
  note.updated.bind resolveUpdated

/-- Loop body of `get_recent_notes` for one note: skip falsy `updated`
values, parse, swallow parse failures, and record the note's id when the
timestamp reaches the cutoff and the id is truthy. -/
def recentQualifies (cutoff : Int) (note : Note) : Option String :=
  match note.updated with
  | none => none
  | some u =>
    if dateTruthy u then
      match resolveUpdated u with
      | some t => if cutoff ≤ t then truthyId note else none
      | none => none
    else none

/-- `get_recent_notes(notes, days)` relative to the current time `now`
(Python reads `datetime.now()`; the embedding passes the clock explicitly):
the set of truthy ids whose resolvable `updated` stamp is at least
`now - timedelta(days=days)`. -/
def get_recent_notes (notes : List Note) (now : Int) (days : Nat) : Finset String :=
  ((notes.filterMap (recentQualifies (now - days))).toFinset)

/-! ### Keyword top-K selection (`create_context_pack`, lines 151-155)

`scored.sort(key=lambda x: x[1], reverse=True)` is Python's stable sort in
descending score order; it is embedded as a stable insertion sort, which has
the same extensional behaviour (descending, ties keep list order) and, unlike
`List.mergeSort`, reduces inside the kernel. -/

/-- Stable descending insertion: the pair goes in front of the first element
whose score does not exceed its own, so equal scores keep their original
relative order. -/
def insertByScoreDesc (p : Note × ℚ) : List (Note × ℚ) → List (Note × ℚ)
  | [] => [p]
  | q :: rest => if q.2 ≤ p.2 then p :: q :: rest else q :: insertByScoreDesc p rest

/-- Stable sort of scored notes, descending by score. -/
def sortByScoreDesc : List (Note × ℚ) → List (Note × ℚ)
  | [] => []
  | p :: rest => insertByScoreDesc p (sortByScoreDesc rest)

/-- `scored = [(n, score_note(n, query_terms)) for n in notes]` followed by
the stable descending sort. -/
def sortedScored (notes : List Note) (query_terms : List String) : List (Note × ℚ) :=
  sortByScoreDesc (notes.map (fun n => (n, score_note n query_terms)))

/-- Lines 153-155: walk `scored[:topk]` and keep the id of every entry whose
id is truthy and whose score is strictly positive. -/
def keywordTopIds (notes : List Note) (query_terms : List String) (topk : Nat) : Finset String :=
  (((sortedScored notes query_terms).take topk).filterMap (fun p =>
    match truthyId p.1 with
    | some s => if (0 : ℚ) < p.2 then some s else none
    | none => none)).toFinset

/-! ### Section extraction (`extract_section`, lines 46-52)

The regex `^## {header}\s*\n(.*?)(?:\n## |\Z)` with flags `re.S | re.M`
is modelled directly: the leftmost line start at which `## {header}` is
followed by a whitespace run containing a newline begins the match, the lazy
capture starts after the last newline of that whitespace run, and it ends at
the first later occurrence of a newline followed by `## ` (or at the end of
the text); the captured text is then `strip()`ped. -/

/-- Python `\s` on the ASCII range, which is also the `str.strip()` default
character class. -/
def wsChar (c : Char) : Bool :=
  c = ' ' || c = '\t' || c = '\n' || c = '\r' || c = '\x0b' || c = '\x0c'

/-- Walk the whitespace run that follows the matched header; return the
suffix that starts right after the last newline of the run, or `none` when
the run contains no newline (then `\s*\n` cannot match here). -/
def afterHeaderWs : List Char → Option (List Char) → Option (List Char)
  | [], acc => acc
  | c :: rest, acc =>
    if c = '\n' then afterHeaderWs rest (some rest)
    else if wsChar c then afterHeaderWs rest acc
    else acc

/-- Lazy capture `(.*?)(?:\n## |\Z)`: everything up to (excluding) the first
occurrence of newline-`## `, or the whole remainder. -/
def captureUntil : List Char → List Char
  | [] => []
  | c :: rest =>
    if List.isPrefixOf ['\n', '#', '#', ' '] (c :: rest) then []
    else c :: captureUntil rest

/-- Try to match the whole section pattern at one line start. -/
def tryMatchAt (headerPat : List Char) (l : List Char) : Option (List Char) :=
  if List.isPrefixOf headerPat l then
    (afterHeaderWs (l.drop headerPat.length) none).map captureUntil
  else none

/-- Scan the remaining text for further line starts (positions just after a
newline, as `re.M` makes `^` match there) and return the leftmost full
match. -/
def scanLineStarts (headerPat : List Char) : List Char → Option (List Char)
  | [] => none
  | c :: rest =>
    if c = '\n' then
      match tryMatchAt headerPat rest with
      | some cap => some cap
      | none => scanLineStarts headerPat rest
    else scanLineStarts headerPat rest

/-- `str.strip()`: drop leading and trailing whitespace. -/
def stripChars (l : List Char) : List Char :=
  ((l.dropWhile wsChar).reverse.dropWhile wsChar).reverse

/-- `extract_section(text, header)`: the stripped body of the first
`## {header}` section, or `""` when the pattern does not occur. -/
def extract_section (text header : String) : String :=
  let headerPat := ("## " ++ header).data
  match
    (match tryMatchAt headerPat text.data with
     | some cap => some cap
     | none => scanLineStarts headerPat text.data) with
  | some cap => String.mk (stripChars cap)
  | none => ""

/-! ### Pack renderer (`create_context_pack`, lines 164-199) -/

/-- Interpolation of a possibly-`None` Python value into an f-string. -/
def optStr : Option String → String
  | some s => s
  | none => "None"

/-- The per-note block `section_text` built in lines 176-191: header line,
optional Summary and Key Points sections, metadata lines, and up to five
link targets. -/
def section_text (note : Note) : String :=
  let summary := extract_section note.text "Summary"
  let key_points := extract_section note.text "Key Points"
  let s0 := "\n### [" ++ optStr note.id ++ "] " ++ note.title ++ "\n"
  let s1 := if summary ≠ "" then s0 ++ "\n**Summary:**\n" ++ summary ++ "\n" else s0
  let s2 := if key_points ≠ "" then s1 ++ "\n**Key Points:**\n" ++ key_points ++ "\n" else s1
  let s3 := s2 ++ "\n- Type: " ++ optStr note.type
  let s4 := s3 ++ "\n- Tags: " ++ joinSep ", " (note.tags.take 5)
  let s5 := s4 ++ "\n- Path: `" ++ note.rel_path ++ "`"
  let s6 := s5 ++ "\n- Confidence: " ++ note.confidence
  let s7 :=
    if note.links ≠ [] then
      s6 ++ "\n- Links: "
        ++ joinSep ", " ((note.links.take 5).map (fun l => "`" ++ optStr l.«to» ++ "`"))
    else s6
  s7 ++ "\n"

/-- The estimated token cost of one candidate's block: character length
divided by four (line 193). -/
def estTokens (p : Note × ℚ) : Nat :=
  (section_text p.1).length / 4

/-- Sum of estimated token costs of a candidate list. -/
def estSum (cands : List (Note × ℚ)) : Nat :=
  (cands.map estTokens).sum

/-- The budgeted rendering loop (lines 172-199): for each ranked candidate
compute its block and its estimated cost; stop before appending as soon as
the running total would exceed `max_tokens` while more than three notes are
already included; otherwise append, add the cost and continue. -/
def packBlocksAux (max_tokens : Nat) : List (Note × ℚ) → Nat → Nat → List String
  | [], _, _ => []
  | (note, _) :: rest, total_tokens, included =>
    let st := section_text note
    let est_tokens := st.length / 4
    if total_tokens + est_tokens > max_tokens ∧ included > 3 then []
    else st :: packBlocksAux max_tokens rest (total_tokens + est_tokens) (included + 1)

/-- The blocks included in the rendered pack for a ranked candidate list. -/
def packBlocks (cands : List (Note × ℚ)) (max_tokens : Nat) : List String :=
  packBlocksAux max_tokens cands 0 0

/-- The fixed preamble lines of the pack document (lines 165-171). -/
def preambleLines (question : String) : List String :=
  ["# CONTEXT PACK v1\n", "## Question\n", question ++ "\n", "\n## Constraints\n",
   "- 답변은 vault 스키마에 맞춰서 액션/결정/노트 링크까지 제안",
   "- 가능하면 기존 노트를 링크하고, 새 노트가 필요하면 제안",
   "\n## Relevant Notes\n"]

/-- The full rendered document: `"\n".join(output_lines)` where the output
lines are the preamble followed by the included blocks. -/
def create_context_pack_doc (question : String) (candidate_notes : List (Note × ℚ))
    (max_tokens : Nat) : String :=
  joinSep "\n" (preambleLines question ++ packBlocks candidate_notes max_tokens)

/-! ### Specification-side definitions

These restate, in the spec's own words, what the claims assert; they are
compared against the source-derived definitions above. -/

/-- Modelled from the spec: the per-term relevance contribution — `3.0` if
the term occurs as a substring of the lowercased title, plus `1.0` per
occurrence of the term as a substring of the lowercased concatenation of
title, newline and body, plus `2.0` if the term occurs as a substring of the
lowercased space-joined tag list. -/
def termRelevance (note : Note) (term : String) : ℚ :=
  (if strIn term (lowerStr note.title) then 3 else 0)
  + (pyCount (lowerStr (note.title ++ "\n" ++ note.text)) term : ℚ)
  + (if strIn term (lowerStr (joinSep " " note.tags)) then 2 else 0)

/-- The worked example pinned by the spec: title "Alignment Research", body
"alignment is hard", tags `["ai", "alignment"]`. -/
def exampleAlignmentNote : Note :=
  { id := some "topic.alignment", type := some "topic", title := "Alignment Research",
    tags := ["ai", "alignment"], links := [], created := none, updated := none,
    confidence := "medium", rel_path := "vault/topics/alignment.md",
    text := "alignment is hard" }

/-- All truthy link targets mentioned anywhere in the loaded note set. -/
def allTargets (notes : List Note) : Finset String :=
  notes.foldr (fun n acc => truthyTargets n ∪ acc) ∅

/-- All truthy link targets of a set of frontier ids: each id is resolved in
the id index and, when a note is found, its truthy targets are collected. -/
def linkTargetsOfSet (notes : List Note) (s : Finset String) : Finset String :=
  s.biUnion (targetsOf notes)

/-- Modelled from the spec: one hop of link reachability — keep the current
identifiers and add every truthy link target of those among them that
resolve in the id index (identifiers that do not resolve are dead ends and
contribute nothing). -/
def reachStep (notes : List Note) (s : Finset String) : Finset String :=
  s ∪ linkTargetsOfSet notes s

/-- Modelled from the spec: the identifiers reachable from the seeds in at
most the given number of hops along outbound links of resolvable notes. -/
def reachWithin (notes : List Note) (seed_ids : Finset String) : Nat → Finset String
  | 0 => seed_ids
  | hops + 1 => reachStep notes (reachWithin notes seed_ids hops)

/-! ### Concrete test fixtures

Small vaults used to evaluate the pipeline at specific inputs. -/

/-- A note whose only link target (`ghost`) has no note in the loaded set. -/
def ghostNote : Note :=
  { id := some "a", type := some "topic", title := "A", tags := [],
    links := [{ «to» := some "ghost" }], created := none, updated := none,
    confidence := "medium", rel_path := "vault/a.md", text := "" }

/-- A note with an 80-character title and otherwise minimal content, whose
rendered block is exactly 160 characters, i.e. an estimated 40 tokens. -/
def minBudgetNote : Note :=
  { id := some "n01", type := some "topic", title := String.mk (List.replicate 80 'a'),
    tags := ["ai"], links := [], created := none, updated := none,
    confidence := "medium", rel_path := "vault/a.md", text := "" }

/-- Ten identical ranked candidates of an estimated 40 tokens each. -/
def minBudgetCands : List (Note × ℚ) :=
  List.replicate 10 (minBudgetNote, (0 : ℚ))

/-- Highest-scoring note for the query term `alignment`, with no id. -/
def kwNoteNoId : Note :=
  { id := none, type := some "topic", title := "alignment alignment", tags := [],
    links := [], created := none, updated := none, confidence := "medium",
    rel_path := "vault/k1.md", text := "" }

/-- Lower-scoring note for the query term `alignment`, with id `b`. -/
def kwNoteB : Note :=
  { id := some "b", type := some "topic", title := "alignment", tags := [],
    links := [], created := none, updated := none, confidence := "medium",
    rel_path := "vault/k2.md", text := "" }

/-- A note updated on 2024-03-01 (rata-die day 738946). -/
def recencyNote : Note :=
  { id := some "r", type := some "log", title := "R", tags := [], links := [],
    created := none, updated := some (DateVal.str "2024-03-01"),
    confidence := "medium", rel_path := "vault/r.md", text := "" }

/-- A note whose `updated` value is present but unparsable. -/
def malformedNote : Note :=
  { id := some "m", type := some "log", title := "M", tags := [], links := [],
    created := none, updated := some (DateVal.str "not-a-date"),
    confidence := "medium", rel_path := "vault/m.md", text := "" }

/-- A note inside any recency window (datetime value) but without an id. -/
def idlessRecentNote : Note :=
  { id := none, type := some "log", title := "I", tags := [], links := [],
    created := none, updated := some (DateVal.dt 738946),
    confidence := "medium", rel_path := "vault/i.md", text := "" }

/-! ### Scorer lemmas -/

lemma foldl_add_eq_sum (g : String → ℚ) :
    ∀ (l : List String) (a : ℚ),
      l.foldl (fun acc t => acc + g t) a = a + (l.map g).sum := by
  intro l
  induction l with
  | nil => intro a; simp
  | cons x xs ih =>
    intro a
    simp only [List.foldl_cons, List.map_cons, List.sum_cons, ih]
    ring

lemma foldl_ite_eq_sum (p : String → Bool) (c : ℚ) :
    ∀ (l : List String) (a : ℚ),
      l.foldl (fun acc t => if p t then acc + c else acc) a
        = a + (l.map (fun t => if p t then c else 0)).sum := by
  intro l
  induction l with
  | nil => intro a; simp
  | cons x xs ih =>
    intro a
    simp only [List.foldl_cons, List.map_cons, List.sum_cons, ih]
    by_cases h : p x = true
    · rw [if_pos h, if_pos h]; ring
    · rw [if_neg h, if_neg h]; ring

lemma sum_map_add (f g : String → ℚ) (l : List String) :
    (l.map (fun t => f t + g t)).sum = (l.map f).sum + (l.map g).sum := by
  induction l with
  | nil => simp
  | cons x xs ih => simp only [List.map_cons, List.sum_cons, ih]; ring

/-- The three accumulation loops of `score_note` compute the per-term sum of
`termRelevance`. -/
lemma score_note_eq_sum (note : Note) (terms : List String) :
    score_note note terms = (terms.map (termRelevance note)).sum := by
  unfold score_note
  rw [foldl_ite_eq_sum, foldl_add_eq_sum, foldl_ite_eq_sum]
  unfold termRelevance
  rw [sum_map_add, sum_map_add]
  ring

/-- Scored value of the spec's worked example. -/
lemma score_example_eq_seven :
    score_note exampleAlignmentNote ["alignment"] = 7 := by
  rw [score_note_eq_sum]
  have h1 : strIn "alignment" (lowerStr exampleAlignmentNote.title) = true := by decide
  have h2 : pyCount
      (lowerStr (exampleAlignmentNote.title ++ "\n" ++ exampleAlignmentNote.text))
      "alignment" = 2 := by decide
  have h3 : strIn "alignment" (lowerStr (joinSep " " exampleAlignmentNote.tags)) = true := by
    decide
  simp only [List.map_cons, List.map_nil, List.sum_cons, List.sum_nil, termRelevance,
    h1, h2, h3, if_true]
  norm_num

/-! ### Expander lemmas -/

lemma mem_allTargets {notes : List Note} {s : String} :
    s ∈ allTargets notes ↔ ∃ n ∈ notes, s ∈ truthyTargets n := by
  induction notes with
  | nil => simp [allTargets]
  | cons m rest ih =>
    simp only [allTargets, List.foldr_cons, Finset.mem_union, List.mem_cons]
    rw [show (List.foldr (fun n acc => truthyTargets n ∪ acc) ∅ rest) = allTargets rest from rfl]
    rw [ih]
    constructor
    · rintro (h | ⟨n, hn, hs⟩)
      · exact ⟨m, Or.inl rfl, h⟩
      · exact ⟨n, Or.inr hn, hs⟩
    · rintro ⟨n, hn | hn, hs⟩
      · exact Or.inl (hn ▸ hs)
      · exact Or.inr ⟨n, hn, hs⟩

lemma notesById_mem {notes : List Note} {key : String} {n : Note}
    (h : notesById notes key = some n) : n ∈ notes := by
  unfold notesById at h
  rcases List.mem_getLast?_eq_getLast h with ⟨hne, heq⟩
  exact List.mem_of_mem_filter (heq ▸ List.getLast_mem hne)

lemma targetsOf_subset_allTargets (notes : List Note) (nid : String) :
    targetsOf notes nid ⊆ allTargets notes := by
  unfold targetsOf
  cases h : notesById notes nid with
  | none => simp
  | some n =>
    intro s hs
    exact mem_allTargets.mpr ⟨n, notesById_mem h, hs⟩

lemma nextLayer_subset_allTargets (notes : List Note) (expanded current : Finset String) :
    nextLayer notes expanded current ⊆ allTargets notes := by
  intro s hs
  rcases Finset.mem_sdiff.mp hs with ⟨hmem, -⟩
  rcases Finset.mem_biUnion.mp hmem with ⟨nid, -, hts⟩
  exact targetsOf_subset_allTargets notes nid hts

/-- The expanded set only ever grows during the loop. -/
lemma subset_expandLoop (notes : List Note) :
    ∀ (hops : Nat) (current expanded : Finset String),
      expanded ⊆ expandLoop notes hops current expanded := by
  intro hops
  induction hops with
  | zero => intro c e; exact Finset.Subset.refl e
  | succ h ih =>
    intro c e
    simp only [expandLoop]
    by_cases hnl : nextLayer notes e c = ∅
    · rw [if_pos hnl]; exact Finset.subset_union_left
    · rw [if_neg hnl]
      exact Finset.Subset.trans Finset.subset_union_left (ih _ _)

/-- Everything the loop ever adds is a truthy link target of a loaded note. -/
lemma expandLoop_subset (notes : List Note) :
    ∀ (hops : Nat) (current expanded : Finset String),
      expandLoop notes hops current expanded ⊆ expanded ∪ allTargets notes := by
  intro hops
  induction hops with
  | zero => intro c e; exact Finset.subset_union_left
  | succ h ih =>
    intro c e
    simp only [expandLoop]
    by_cases hnl : nextLayer notes e c = ∅
    · rw [if_pos hnl, hnl]
      exact Finset.union_subset Finset.subset_union_left (by simp)
    · rw [if_neg hnl]
      refine Finset.Subset.trans (ih _ _) (Finset.union_subset ?_ Finset.subset_union_right)
      exact Finset.union_subset Finset.subset_union_left
        (Finset.Subset.trans (nextLayer_subset_allTargets notes e c) Finset.subset_union_right)

/-- One extra hop can only add identifiers. -/
lemma expandLoop_fuel_mono (notes : List Note) :
    ∀ (hops : Nat) (current expanded : Finset String),
      expandLoop notes hops current expanded ⊆ expandLoop notes (hops + 1) current expanded := by
  intro hops
  induction hops with
  | zero =>
    intro c e
    exact subset_expandLoop notes 1 c e
  | succ h ih =>
    intro c e
    show expandLoop notes (h + 1) c e ⊆ expandLoop notes (h + 1 + 1) c e
    simp only [expandLoop]
    by_cases hnl : nextLayer notes e c = ∅
    · rw [if_pos hnl, if_pos hnl]
    · rw [if_neg hnl, if_neg hnl]
      exact ih _ _

/-- The loop stops as soon as a round produces an empty frontier. -/
lemma expandLoop_idle (notes : List Note) (hops : Nat) (current expanded : Finset String)
    (h : nextLayer notes expanded current = ∅) :
    expandLoop notes (hops + 1) current expanded = expanded := by
  simp [expandLoop, h]

/-- The whole traversal only reads the id index through `targetsOf`. -/
lemma expandLoop_congr {notes1 notes2 : List Note}
    (h : ∀ key, targetsOf notes1 key = targetsOf notes2 key) :
    ∀ (hops : Nat) (current expanded : Finset String),
      expandLoop notes1 hops current expanded = expandLoop notes2 hops current expanded := by
  intro hops
  induction hops with
  | zero => intro c e; rfl
  | succ hp ih =>
    intro c e
    have hnl : nextLayer notes1 e c = nextLayer notes2 e c := by
      unfold nextLayer
      rw [Finset.biUnion_congr rfl (fun key _ => h key)]
    simp only [expandLoop, hnl]
    by_cases hempty : nextLayer notes2 e c = ∅
    · rw [if_pos hempty, if_pos hempty]
    · rw [if_neg hempty, if_neg hempty, ih]

/-- Replacing one note of the list by a note with the same truthy id and the
same truthy link targets leaves the id-indexed target lookup unchanged. -/
lemma targetsOf_middle (pre post : List Note) (n1 n2 : Note)
    (hid : truthyId n1 = truthyId n2) (hlk : truthyTargets n1 = truthyTargets n2)
    (key : String) :
    targetsOf (pre ++ n1 :: post) key = targetsOf (pre ++ n2 :: post) key := by
  unfold targetsOf notesById
  rw [List.filter_append, List.filter_append, List.filter_cons, List.filter_cons]
  have hdec : (decide (truthyId n1 = some key)) = (decide (truthyId n2 = some key)) := by
    rw [hid]
  by_cases hp : truthyId n2 = some key
  · rw [hdec, decide_eq_true hp]
    simp only [if_true]
    rw [List.getLast?_append, List.getLast?_append]
    cases hpost : List.filter (fun n => decide (truthyId n = some key)) post with
    | nil => simp [hlk]
    | cons h t => simp [List.getLast?_cons_cons]
  · rw [hdec, decide_eq_false hp]
    simp only [Bool.false_eq_true, if_false]

/-! ### Reachability lemmas

`expand_links` computes exactly the hop-bounded reachability closure
`reachWithin`: the loop state `(current, expanded)` satisfies the invariant
that every visited id is either still on the frontier or has had all its
targets folded into the visited set. -/

lemma nextLayer_eq_sdiff (notes : List Note) (expanded current : Finset String) :
    nextLayer notes expanded current = linkTargetsOfSet notes current \ expanded := rfl

lemma linkTargetsOfSet_mono {notes : List Note} {A B : Finset String} (h : A ⊆ B) :
    linkTargetsOfSet notes A ⊆ linkTargetsOfSet notes B := by
  intro x hx
  rcases Finset.mem_biUnion.mp hx with ⟨y, hy, hxy⟩
  exact Finset.mem_biUnion.mpr ⟨y, h hy, hxy⟩

lemma linkTargetsOfSet_union (notes : List Note) (A B : Finset String) :
    linkTargetsOfSet notes (A ∪ B)
      = linkTargetsOfSet notes A ∪ linkTargetsOfSet notes B := by
  ext x
  simp only [linkTargetsOfSet, Finset.mem_biUnion, Finset.mem_union]
  constructor
  · rintro ⟨y, hy | hy, hxy⟩
    · exact Or.inl ⟨y, hy, hxy⟩
    · exact Or.inr ⟨y, hy, hxy⟩
  · rintro (⟨y, hy, hxy⟩ | ⟨y, hy, hxy⟩)
    · exact ⟨y, Or.inl hy, hxy⟩
    · exact ⟨y, Or.inr hy, hxy⟩

lemma subset_reachWithin (notes : List Note) (s : Finset String) :
    ∀ hops, s ⊆ reachWithin notes s hops := by
  intro hops
  induction hops with
  | zero => exact Finset.Subset.refl s
  | succ h ih => exact ih.trans Finset.subset_union_left

lemma reachWithin_fuel_succ (notes : List Note) (s : Finset String) (hops : Nat) :
    reachWithin notes s hops ⊆ reachWithin notes s (hops + 1) :=
  Finset.subset_union_left

lemma reachWithin_mono {notes : List Note} {A B : Finset String} (h : A ⊆ B) :
    ∀ hops, reachWithin notes A hops ⊆ reachWithin notes B hops := by
  intro hops
  induction hops with
  | zero => exact h
  | succ hp ih => exact Finset.union_subset_union ih (linkTargetsOfSet_mono ih)

lemma reachWithin_union (notes : List Note) (A B : Finset String) :
    ∀ hops, reachWithin notes (A ∪ B) hops
      = reachWithin notes A hops ∪ reachWithin notes B hops := by
  intro hops
  induction hops with
  | zero => rfl
  | succ hp ih =>
    show reachStep notes (reachWithin notes (A ∪ B) hp)
        = reachStep notes (reachWithin notes A hp)
          ∪ reachStep notes (reachWithin notes B hp)
    rw [ih]
    unfold reachStep
    rw [linkTargetsOfSet_union]
    ext x
    simp only [Finset.mem_union]
    tauto

lemma reachWithin_closed {notes : List Note} {e : Finset String}
    (hcl : linkTargetsOfSet notes e ⊆ e) :
    ∀ hops, reachWithin notes e hops ⊆ e := by
  intro hops
  induction hops with
  | zero => exact Finset.Subset.refl e
  | succ hp ih =>
    exact Finset.union_subset ih ((linkTargetsOfSet_mono ih).trans hcl)

lemma reachWithin_succ_front (notes : List Note) :
    ∀ (hops : Nat) (s : Finset String),
      reachWithin notes s (hops + 1) = reachWithin notes (reachStep notes s) hops := by
  intro hops
  induction hops with
  | zero => intro s; rfl
  | succ hp ih =>
    intro s
    show reachStep notes (reachWithin notes s (hp + 1)) = _
    rw [ih s]
    rfl

/-- Ids visited in earlier rounds reach, beyond the visited set itself, only
what the current frontier reaches. -/
lemma reachWithin_frontier_bound {notes : List Note} {c e nl : Finset String}
    (hinv : ∀ x ∈ e, x ∈ c ∨ targetsOf notes x ⊆ e)
    (htc : linkTargetsOfSet notes c ⊆ e ∪ nl) :
    ∀ hops, reachWithin notes e hops ⊆ e ∪ reachWithin notes nl hops := by
  intro hops
  induction hops with
  | zero => exact Finset.subset_union_left
  | succ hp ih =>
    intro x hx
    rcases Finset.mem_union.mp hx with hx | hx
    · rcases Finset.mem_union.mp (ih hx) with hx | hx
      · exact Finset.mem_union_left _ hx
      · exact Finset.mem_union_right _ (reachWithin_fuel_succ notes nl hp hx)
    · rcases Finset.mem_biUnion.mp hx with ⟨y, hy, hxy⟩
      rcases Finset.mem_union.mp (ih hy) with hy | hy
      · rcases hinv y hy with hyc | hty
        · have hxc : x ∈ linkTargetsOfSet notes c :=
            Finset.mem_biUnion.mpr ⟨y, hyc, hxy⟩
          rcases Finset.mem_union.mp (htc hxc) with hx | hx
          · exact Finset.mem_union_left _ hx
          · exact Finset.mem_union_right _ (subset_reachWithin notes nl (hp + 1) hx)
        · exact Finset.mem_union_left _ (hty hxy)
      · have : x ∈ linkTargetsOfSet notes (reachWithin notes nl hp) :=
          Finset.mem_biUnion.mpr ⟨y, hy, hxy⟩
        exact Finset.mem_union_right _ (Finset.mem_union_right _ this)

/-- Under the loop invariant, the BFS loop computes the visited set plus the
hop-bounded reachability closure of the frontier. -/
lemma expandLoop_eq_reach (notes : List Note) :
    ∀ (hops : Nat) (current expanded : Finset String),
      current ⊆ expanded →
      (∀ x ∈ expanded, x ∈ current ∨ targetsOf notes x ⊆ expanded) →
      expandLoop notes hops current expanded
        = expanded ∪ reachWithin notes current hops := by
  intro hops
  induction hops with
  | zero =>
    intro c e hce _
    exact (Finset.union_eq_left.mpr hce).symm
  | succ hp ih =>
    intro c e hce hinv
    have htc2 : linkTargetsOfSet notes c ⊆ e ∪ nextLayer notes e c := by
      intro y hy
      by_cases hye : y ∈ e
      · exact Finset.mem_union_left _ hye
      · exact Finset.mem_union_right _ (Finset.mem_sdiff.mpr ⟨hy, hye⟩)
    simp only [expandLoop]
    by_cases hnl : nextLayer notes e c = ∅
    · rw [if_pos hnl, hnl, Finset.union_empty]
      have htc : linkTargetsOfSet notes c ⊆ e := by
        have := Finset.sdiff_eq_empty_iff_subset.mp hnl
        exact this
      have hclosed : linkTargetsOfSet notes e ⊆ e := by
        intro x hx
        rcases Finset.mem_biUnion.mp hx with ⟨y, hy, hxy⟩
        rcases hinv y hy with hyc | hty
        · exact htc (Finset.mem_biUnion.mpr ⟨y, hyc, hxy⟩)
        · exact hty hxy
      have hsub : reachWithin notes c (hp + 1) ⊆ e :=
        (reachWithin_mono hce (hp + 1)).trans (reachWithin_closed hclosed (hp + 1))
      exact (Finset.union_eq_left.mpr hsub).symm
    · rw [if_neg hnl]
      have hinv2 : ∀ x ∈ e ∪ nextLayer notes e c,
          x ∈ nextLayer notes e c ∨ targetsOf notes x ⊆ e ∪ nextLayer notes e c := by
        intro x hx
        rcases Finset.mem_union.mp hx with hx | hx
        · rcases hinv x hx with hxc | htx
          · refine Or.inr ((fun z hz => ?_ : targetsOf notes x ⊆ _))
            exact htc2 (Finset.mem_biUnion.mpr ⟨x, hxc, hz⟩)
          · exact Or.inr (htx.trans Finset.subset_union_left)
        · exact Or.inl hx
      rw [ih (nextLayer notes e c) (e ∪ nextLayer notes e c)
        Finset.subset_union_right hinv2]
      have hfront := reachWithin_frontier_bound hinv htc2 hp
      have hstep : reachWithin notes c (hp + 1)
          = reachWithin notes c hp ∪ reachWithin notes (linkTargetsOfSet notes c) hp := by
        rw [reachWithin_succ_front]
        unfold reachStep
        exact reachWithin_union notes c (linkTargetsOfSet notes c) hp
      apply Finset.Subset.antisymm
      · refine Finset.union_subset (Finset.union_subset ?_ ?_) ?_
        · exact Finset.subset_union_left
        · refine fun x hx => Finset.mem_union_right _ ?_
          rw [hstep]
          refine Finset.mem_union_right _ ?_
          exact subset_reachWithin notes _ hp
            (Finset.mem_sdiff.mp hx |>.1)
        · refine fun x hx => Finset.mem_union_right _ ?_
          rw [hstep]
          refine Finset.mem_union_right _ ?_
          refine reachWithin_mono ?_ hp hx
          exact fun z hz => Finset.mem_sdiff.mp hz |>.1
      · refine Finset.union_subset (fun x hx => Finset.mem_union_left _
          (Finset.mem_union_left _ hx)) ?_
        rw [hstep]
        refine Finset.union_subset ?_ ?_
        · refine ((reachWithin_mono hce hp).trans hfront).trans ?_
          refine Finset.union_subset (fun x hx => Finset.mem_union_left _
            (Finset.mem_union_left _ hx)) (fun x hx => Finset.mem_union_right _ hx)
        · refine ((reachWithin_mono htc2 hp).trans ?_)
          rw [reachWithin_union]
          refine Finset.union_subset (hfront.trans ?_) ?_
          · exact Finset.union_subset (fun x hx => Finset.mem_union_left _
              (Finset.mem_union_left _ hx)) (fun x hx => Finset.mem_union_right _ hx)
          · exact fun x hx => Finset.mem_union_right _ hx

/-! ### Recency lemmas -/

lemma strptimeYMD_empty : strptimeYMD "" = none := by decide

/-- Unfolding of the recency loop body into the spec-level condition. -/
lemma recentQualifies_eq_some (cutoff : Int) (n : Note) (s : String) :
    recentQualifies cutoff n = some s
      ↔ truthyId n = some s ∧ ∃ t, updatedTime n = some t ∧ cutoff ≤ t := by
  cases hn : n.updated with
  | none => simp [recentQualifies, updatedTime, hn]
  | some u =>
    cases u with
    | dt t =>
      by_cases hc : cutoff ≤ t
      · simp [recentQualifies, updatedTime, hn, resolveUpdated, dateTruthy, hc]
      · simp [recentQualifies, updatedTime, hn, resolveUpdated, dateTruthy, hc]
    | str v =>
      by_cases hv : v = ""
      · subst hv
        simp [recentQualifies, updatedTime, hn, resolveUpdated, dateTruthy,
          strptimeYMD_empty]
      · cases hp : strptimeYMD v with
        | none =>
          simp [recentQualifies, updatedTime, hn, resolveUpdated, dateTruthy, hv, hp]
        | some t =>
          by_cases hc : cutoff ≤ t
          · simp [recentQualifies, updatedTime, hn, resolveUpdated, dateTruthy, hv, hp, hc]
          · simp [recentQualifies, updatedTime, hn, resolveUpdated, dateTruthy, hv, hp, hc]

/-- Membership in the recency set. -/
lemma mem_get_recent_notes {notes : List Note} {now : Int} {days : Nat} {s : String} :
    s ∈ get_recent_notes notes now days
      ↔ ∃ n ∈ notes, truthyId n = some s ∧ ∃ t, updatedTime n = some t ∧ now - days ≤ t := by
  unfold get_recent_notes
  rw [List.mem_toFinset, List.mem_filterMap]
  constructor
  · rintro ⟨n, hn, hq⟩
    exact ⟨n, hn, (recentQualifies_eq_some _ n s).mp hq⟩
  · rintro ⟨n, hn, hq⟩
    exact ⟨n, hn, (recentQualifies_eq_some _ n s).mpr hq⟩

lemma recentQualifies_of_falsy_id {cutoff : Int} {n : Note}
    (h : truthyId n = none) : recentQualifies cutoff n = none := by
  unfold recentQualifies
  cases n.updated with
  | none => rfl
  | some u =>
    by_cases hu : dateTruthy u = true
    · cases hru : resolveUpdated u with
      | none => simp [hu, hru]
      | some t =>
        by_cases hc : cutoff ≤ t
        · simp [hu, hru, hc, h]
        · simp [hu, hru, hc]
    · simp [hu]

lemma recentQualifies_of_bad_parse {cutoff : Int} {n : Note} {s : String}
    (hval : n.updated = some (DateVal.str s)) (hbad : strptimeYMD s = none) :
    recentQualifies cutoff n = none := by
  unfold recentQualifies
  rw [hval]
  by_cases hs : s = ""
  · subst hs; simp [dateTruthy]
  · simp [dateTruthy, hs, resolveUpdated, hbad]

/-! ### Sorting lemmas -/

lemma insertByScoreDesc_perm (p : Note × ℚ) :
    ∀ l : List (Note × ℚ), (insertByScoreDesc p l).Perm (p :: l) := by
  intro l
  induction l with
  | nil => simp [insertByScoreDesc]
  | cons q rest ih =>
    unfold insertByScoreDesc
    by_cases h : q.2 ≤ p.2
    · rw [if_pos h]
    · rw [if_neg h]
      exact (ih.cons q).trans (List.Perm.swap p q rest)

lemma sortByScoreDesc_perm :
    ∀ l : List (Note × ℚ), (sortByScoreDesc l).Perm l := by
  intro l
  induction l with
  | nil => simp [sortByScoreDesc]
  | cons p rest ih =>
    unfold sortByScoreDesc
    exact (insertByScoreDesc_perm p (sortByScoreDesc rest)).trans (ih.cons p)

lemma mem_insertByScoreDesc {p q : Note × ℚ} {l : List (Note × ℚ)} :
    q ∈ insertByScoreDesc p l ↔ q = p ∨ q ∈ l := by
  rw [(insertByScoreDesc_perm p l).mem_iff, List.mem_cons]

lemma pairwise_insertByScoreDesc {p : Note × ℚ} :
    ∀ {l : List (Note × ℚ)}, List.Pairwise (fun a b => b.2 ≤ a.2) l →
      List.Pairwise (fun a b => b.2 ≤ a.2) (insertByScoreDesc p l) := by
  intro l
  induction l with
  | nil => intro _; simp [insertByScoreDesc]
  | cons q rest ih =>
    intro h
    rcases List.pairwise_cons.mp h with ⟨hq, hrest⟩
    unfold insertByScoreDesc
    by_cases hle : q.2 ≤ p.2
    · rw [if_pos hle]
      refine List.pairwise_cons.mpr ⟨?_, h⟩
      intro b hb
      rcases List.mem_cons.mp hb with hb | hb
      · exact hb ▸ hle
      · exact le_trans (hq b hb) hle
    · rw [if_neg hle]
      refine List.pairwise_cons.mpr ⟨?_, ih hrest⟩
      intro b hb
      rcases mem_insertByScoreDesc.mp hb with hb | hb
      · exact hb ▸ le_of_not_le hle
      · exact hq b hb

lemma sortByScoreDesc_pairwise :
    ∀ l : List (Note × ℚ), List.Pairwise (fun a b => b.2 ≤ a.2) (sortByScoreDesc l) := by
  intro l
  induction l with
  | nil => simp [sortByScoreDesc]
  | cons p rest ih => exact pairwise_insertByScoreDesc ih

/-- Unfolding of the per-candidate filter in the keyword top-K loop. -/
lemma keywordFilter_eq_some (p : Note × ℚ) (s : String) :
    (match truthyId p.1 with
      | some v => if (0 : ℚ) < p.2 then some v else none
      | none => none) = some s
      ↔ truthyId p.1 = some s ∧ (0 : ℚ) < p.2 := by
  cases hid : truthyId p.1 with
  | none => simp
  | some v =>
    by_cases hpos : (0 : ℚ) < p.2
    · simp [hpos]
    · simp [hpos]

/-- Membership in the keyword contribution. -/
lemma mem_keywordTopIds {notes : List Note} {query_terms : List String} {topk : Nat}
    {s : String} :
    s ∈ keywordTopIds notes query_terms topk
      ↔ ∃ p ∈ (sortedScored notes query_terms).take topk,
          truthyId p.1 = some s ∧ (0 : ℚ) < p.2 := by
  unfold keywordTopIds
  rw [List.mem_toFinset, List.mem_filterMap]
  constructor
  · rintro ⟨p, hp, hf⟩
    exact ⟨p, hp, (keywordFilter_eq_some p s).mp hf⟩
  · rintro ⟨p, hp, hf⟩
    exact ⟨p, hp, (keywordFilter_eq_some p s).mpr hf⟩

/-! ### Renderer lemmas -/

/-- The rendering loop emits exactly the blocks of a prefix of the candidate
list; either the whole list is included, or the stop happened at a point
where at least four notes were already counted (including the initial
offset) and the running total had overrun the budget. -/
lemma packBlocksAux_spec (max_tokens : Nat) :
    ∀ (cands : List (Note × ℚ)) (total included : Nat),
      ∃ k, packBlocksAux max_tokens cands total included
            = (cands.take k).map (fun p => section_text p.1)
        ∧ (k = cands.length
           ∨ (4 ≤ included + k ∧ max_tokens < total + estSum (cands.take (k + 1)))) := by
  intro cands
  induction cands with
  | nil =>
    intro total included
    exact ⟨0, by simp [packBlocksAux], Or.inl rfl⟩
  | cons hd rest ih =>
    intro total included
    rcases hd with ⟨note, sc⟩
    by_cases hstop :
        total + (section_text note).length / 4 > max_tokens ∧ included > 3
    · refine ⟨0, ?_, Or.inr ⟨by omega, ?_⟩⟩
      · simp [packBlocksAux, hstop]
      · have h1 := hstop.1
        simp only [List.take_succ_cons, List.take_zero, estSum, List.map_cons, List.map_nil,
          List.sum_cons, List.sum_nil, estTokens]
        omega
    · rcases ih (total + (section_text note).length / 4) (included + 1)
        with ⟨k, hout, hcase⟩
      refine ⟨k + 1, ?_, ?_⟩
      · simp only [packBlocksAux, if_neg hstop, List.take_succ_cons, List.map_cons]
        rw [hout]
      · rcases hcase with hall | ⟨hinc, hbud⟩
        · exact Or.inl (by simp [hall])
        · refine Or.inr ⟨by omega, ?_⟩
          simp only [List.take_succ_cons, estSum, List.map_cons, List.sum_cons, estTokens]
          simp only [estSum] at hbud
          omega

/-! ### Evaluation lemmas for the fixtures -/

lemma truthyId_eq_some {n : Note} {s : String} :
    truthyId n = some s ↔ n.id = some s ∧ s ≠ "" := by
  cases hid : n.id with
  | none => simp [truthyId, hid]
  | some v =>
    have hdef : truthyId n = if v ≠ "" then some v else none := by
      unfold truthyId
      rw [hid]
    rw [hdef]
    by_cases hv : v = ""
    · subst hv
      rw [if_neg (by simp)]
      constructor
      · intro h; cases h
      · rintro ⟨h1, h2⟩
        cases h1
        exact absurd rfl h2
    · rw [if_pos hv]
      constructor
      · intro h
        cases h
        exact ⟨rfl, hv⟩
      · rintro ⟨h1, -⟩
        cases h1
        rfl

lemma score_kwNoteNoId_eval : score_note kwNoteNoId ["alignment"] = 5 := by
  rw [score_note_eq_sum]
  have h1 : strIn "alignment" (lowerStr kwNoteNoId.title) = true := by decide
  have h2 : pyCount (lowerStr (kwNoteNoId.title ++ "\n" ++ kwNoteNoId.text))
      "alignment" = 2 := by decide
  have h3 : strIn "alignment" (lowerStr (joinSep " " kwNoteNoId.tags)) = false := by decide
  simp only [List.map_cons, List.map_nil, List.sum_cons, List.sum_nil, termRelevance,
    h1, h2, h3, if_true, Bool.false_eq_true, if_false]
  norm_num

lemma score_kwNoteB_eval : score_note kwNoteB ["alignment"] = 4 := by
  rw [score_note_eq_sum]
  have h1 : strIn "alignment" (lowerStr kwNoteB.title) = true := by decide
  have h2 : pyCount (lowerStr (kwNoteB.title ++ "\n" ++ kwNoteB.text))
      "alignment" = 1 := by decide
  have h3 : strIn "alignment" (lowerStr (joinSep " " kwNoteB.tags)) = false := by decide
  simp only [List.map_cons, List.map_nil, List.sum_cons, List.sum_nil, termRelevance,
    h1, h2, h3, if_true, Bool.false_eq_true, if_false]
  norm_num

lemma sortedScored_kw_eval :
    sortedScored [kwNoteNoId, kwNoteB] ["alignment"] = [(kwNoteNoId, 5), (kwNoteB, 4)] := by
  unfold sortedScored
  simp only [List.map_cons, List.map_nil, score_kwNoteNoId_eval, score_kwNoteB_eval]
  simp only [sortByScoreDesc, insertByScoreDesc]
  norm_num

/-! ### Claim theorems -/

/-- C1: for every note and list of query terms the relevance score is the
sum over the terms of a flat `3.0` title-substring bonus, `1.0` per counted
occurrence in the lowercased title-newline-body concatenation, and a flat
`2.0` tag-list-substring bonus; on the worked example (title "Alignment
Research", body "alignment is hard", tags `["ai","alignment"]`, term
"alignment") the score is exactly `7.0`. -/
theorem score_note_matches_spec_formula :
    (∀ (note : Note) (query_terms : List String),
        score_note note query_terms = (query_terms.map (termRelevance note)).sum)
    ∧ score_note exampleAlignmentNote ["alignment"] = 7 :=
  ⟨score_note_eq_sum, score_example_eq_seven⟩

/-- C2 counterexample: in a one-note vault whose note `a` links only to the
unloaded id `ghost`, the target `ghost` is not in the id index, is not a
seed, and yet enters the round-one frontier and the returned expansion set —
refuting the claim that unresolvable targets never reach the frontier and
that the output holds no unresolvable non-seed id. -/
theorem expand_links_unresolved_target_cex :
    notesById [ghostNote] "ghost" = none
    ∧ "ghost" ∉ ({"a"} : Finset String)
    ∧ "ghost" ∈ nextLayer [ghostNote] {"a"} {"a"}
    ∧ "ghost" ∈ expand_links [ghostNote] {"a"} 1 := by
  decide

/-- C2 amended: unresolvable truthy link targets do enter the frontier and
the output; the output is exactly the hop-bounded reachability closure of
the seeds, where each hop resolves a frontier id in the id index and follows
the truthy link targets of the note found (so an id absent from the index is
a dead-end leaf: it appears in the output when linked to, but contributes no
further identifiers, as the second conjunct states explicitly). -/
theorem expand_links_exact_reachability :
    ∀ (notes : List Note) (seed_ids : Finset String) (hops : Nat),
      expand_links notes seed_ids hops = reachWithin notes seed_ids hops
      ∧ ∀ (s : String) (expanded : Finset String),
          notesById notes s = none → nextLayer notes expanded {s} = ∅ := by
  intro notes seed_ids hops
  constructor
  · unfold expand_links
    rw [expandLoop_eq_reach notes hops seed_ids seed_ids (Finset.Subset.refl _)
      (fun x hx => Or.inl hx)]
    exact Finset.union_eq_right.mpr (subset_reachWithin notes seed_ids hops)
  · intro s expanded h
    unfold nextLayer
    rw [Finset.singleton_biUnion]
    unfold targetsOf
    rw [h]
    exact Finset.empty_sdiff expanded

/-- C2 amended, witness at a concrete input. -/
theorem expand_links_exact_reachability_witness :
    expand_links [ghostNote] {"a"} 2 = reachWithin [ghostNote] {"a"} 2
    ∧ nextLayer [ghostNote] {"a"} {"ghost"} = ∅ :=
  ⟨(expand_links_exact_reachability [ghostNote] {"a"} 2).1,
   (expand_links_exact_reachability [ghostNote] {"a"} 2).2 "ghost" {"a"} (by decide)⟩

/-- C6: one extra hop can only enlarge the expansion set (monotonicity in
the hop count). -/
theorem expand_links_hops_mono :
    ∀ (notes : List Note) (seed_ids : Finset String) (hops : Nat),
      expand_links notes seed_ids hops ⊆ expand_links notes seed_ids (hops + 1) :=
  fun notes seed_ids hops => expandLoop_fuel_mono notes hops seed_ids seed_ids

/-- C7: with zero hops the expansion returns exactly the seed set. -/
theorem expand_links_zero_hops :
    ∀ (notes : List Note) (seed_ids : Finset String),
      expand_links notes seed_ids 0 = seed_ids :=
  fun _ _ => rfl

/-- C8: the expansion is a total bounded traversal — a round's frontier is
always disjoint from the already-visited set (only unvisited ids are
enqueued), an empty frontier stops the loop immediately, and the result of
any number of hops stays within the seeds plus the finitely many link
targets occurring in the vault (so the output size is bounded independently
of the hop count, cycles and self-links included). -/
theorem expand_links_bounded_traversal :
    ∀ notes : List Note,
      (∀ expanded current : Finset String,
        nextLayer notes expanded current ∩ expanded = ∅)
      ∧ (∀ (hops : Nat) (current expanded : Finset String),
          nextLayer notes expanded current = ∅ →
          expandLoop notes (hops + 1) current expanded = expanded)
      ∧ (∀ (seed_ids : Finset String) (hops : Nat),
          (expand_links notes seed_ids hops).card
            ≤ seed_ids.card + (allTargets notes).card) := by
  intro notes
  refine ⟨?_, ?_, ?_⟩
  · intro expanded current
    unfold nextLayer
    exact Finset.sdiff_inter_self expanded (current.biUnion (targetsOf notes))
  · intro hops current expanded h
    exact expandLoop_idle notes hops current expanded h
  · intro seed_ids hops
    calc (expand_links notes seed_ids hops).card
        ≤ (seed_ids ∪ allTargets notes).card :=
          Finset.card_le_card (expandLoop_subset notes hops seed_ids seed_ids)
      _ ≤ seed_ids.card + (allTargets notes).card :=
          Finset.card_union_le seed_ids (allTargets notes)

/-- C8, witness at a concrete input. -/
theorem expand_links_bounded_traversal_witness :
    nextLayer [ghostNote] {"a"} {"a"} ∩ {"a"} = ∅
    ∧ expandLoop [ghostNote] 1 {"zzz"} {"zzz"} = {"zzz"}
    ∧ (expand_links [ghostNote] {"a"} 1).card
        ≤ ({"a"} : Finset String).card + (allTargets [ghostNote]).card :=
  ⟨(expand_links_bounded_traversal [ghostNote]).1 {"a"} {"a"},
   (expand_links_bounded_traversal [ghostNote]).2.1 0 {"zzz"} {"zzz"} (by decide),
   (expand_links_bounded_traversal [ghostNote]).2.2 {"a"} 1⟩

/-- C3: for any ranked candidate list of at least four entries and any
positive budget the rendered document contains the blocks of a prefix of at
least four candidates, and a strict prefix is only cut at a point where the
accumulated estimate of the next block overruns the budget (with at least
four already included); with `max_tokens = 1` and ten identical candidates
of an estimated 40 tokens each, exactly the first four blocks are kept. -/
theorem renderer_min_inclusion :
    (∀ (cands : List (Note × ℚ)) (question : String) (max_tokens : Nat),
        1 ≤ max_tokens → 4 ≤ cands.length →
        ∃ k, 4 ≤ k
          ∧ create_context_pack_doc question cands max_tokens
              = joinSep "\n"
                  (preambleLines question ++ (cands.take k).map (fun p => section_text p.1))
          ∧ (k < cands.length → max_tokens < estSum (cands.take (k + 1))))
    ∧ packBlocks minBudgetCands 1
        = (minBudgetCands.take 4).map (fun p => section_text p.1)
    ∧ estTokens (minBudgetNote, (0 : ℚ)) = 40 := by
  refine ⟨?_, by decide, by decide⟩
  intro cands question max_tokens hpos hlen
  rcases packBlocksAux_spec max_tokens cands 0 0 with ⟨k, hout, hcase⟩
  have hdoc : create_context_pack_doc question cands max_tokens
      = joinSep "\n"
          (preambleLines question ++ (cands.take k).map (fun p => section_text p.1)) := by
    unfold create_context_pack_doc packBlocks
    rw [hout]
  rcases hcase with hall | ⟨hinc, hbud⟩
  · exact ⟨k, by omega, hdoc, fun hlt => absurd hall (by omega)⟩
  · refine ⟨k, by omega, hdoc, fun _ => ?_⟩
    simpa using hbud

/-- C3, witness at the concrete minimum-budget input. -/
theorem renderer_min_inclusion_witness :
    ∃ k, 4 ≤ k
      ∧ create_context_pack_doc "q" minBudgetCands 1
          = joinSep "\n"
              (preambleLines "q" ++ (minBudgetCands.take k).map (fun p => section_text p.1))
      ∧ (k < minBudgetCands.length → 1 < estSum (minBudgetCands.take (k + 1))) :=
  renderer_min_inclusion.1 minBudgetCands "q" 1 (by decide) (by decide)

/-- C4 counterexample: with `topk = 1` and the single query term `alignment`,
the id-less note scores 5 and tops the ranking while note `b` scores 4 and
satisfies both the positive-score and id-present conditions; the claim would
put `b` into the keyword contribution (fewer than `topk` earlier notes
satisfy both conditions), but the code slices the top `topk` positions
before filtering and returns the empty set. -/
theorem keyword_topk_take_before_filter_cex :
    keywordTopIds [kwNoteNoId, kwNoteB] ["alignment"] 1 = ∅
    ∧ truthyId kwNoteNoId = none
    ∧ truthyId kwNoteB = some "b"
    ∧ (0 : ℚ) < score_note kwNoteB ["alignment"]
    ∧ score_note kwNoteB ["alignment"] < score_note kwNoteNoId ["alignment"] := by
  refine ⟨?_, by decide, by decide, ?_, ?_⟩
  · unfold keywordTopIds
    rw [sortedScored_kw_eval]
    simp [truthyId, kwNoteNoId]
  · rw [score_kwNoteB_eval]
    norm_num
  · rw [score_kwNoteB_eval, score_kwNoteNoId_eval]
    norm_num

/-- C4 amended: the keyword contribution consists of the ids of those
entries among the first `topk` positions of the stable descending-sorted
score list whose id is truthy and whose score is strictly positive; the sort
is a permutation of the scored note list and is descending by score, but an
entry outside the first `topk` positions never contributes, even when
earlier positions fail the id or positivity test. -/
theorem keyword_topk_spec :
    ∀ (notes : List Note) (query_terms : List String) (topk : Nat),
      (∀ s, s ∈ keywordTopIds notes query_terms topk
          ↔ ∃ p ∈ (sortedScored notes query_terms).take topk,
              truthyId p.1 = some s ∧ (0 : ℚ) < p.2)
      ∧ (sortedScored notes query_terms).Perm
          (notes.map (fun n => (n, score_note n query_terms)))
      ∧ List.Pairwise (fun a b => b.2 ≤ a.2) (sortedScored notes query_terms) :=
  fun _ _ _ =>
    ⟨fun _ => mem_keywordTopIds, sortByScoreDesc_perm _, sortByScoreDesc_pairwise _⟩

/-- C5: an id belongs to the recency set exactly when some note carries it
as its truthy id and has a resolvable update timestamp at least
`now - days`; in particular a single note updated exactly at `now - days` is
included and one updated one day before the cutoff is excluded. -/
theorem recency_window_spec :
    (∀ (notes : List Note) (now : Int) (days : Nat) (s : String),
        s ∈ get_recent_notes notes now days
          ↔ ∃ n ∈ notes, truthyId n = some s
              ∧ ∃ t, updatedTime n = some t ∧ now - days ≤ t)
    ∧ (∀ (n : Note) (now : Int) (days : Nat) (s : String), truthyId n = some s →
        (updatedTime n = some (now - days) → s ∈ get_recent_notes [n] now days)
        ∧ (updatedTime n = some (now - days - 1) → s ∉ get_recent_notes [n] now days)) := by
  refine ⟨fun notes now days s => mem_get_recent_notes, ?_⟩
  intro n now days s hid
  constructor
  · intro hupd
    exact mem_get_recent_notes.mpr
      ⟨n, List.mem_singleton_self n, hid, now - days, hupd, le_refl _⟩
  · intro hupd hmem
    rcases mem_get_recent_notes.mp hmem with ⟨m, hm, -, t, ht, hle⟩
    rcases List.mem_singleton.mp hm with rfl
    rw [hupd] at ht
    cases ht
    omega

/-- C5, witness at the boundary: `recencyNote` is updated on day 738946;
with `days = 30` it is included when `now = 738976` and excluded when
`now = 738977`. -/
theorem recency_window_spec_witness :
    "r" ∈ get_recent_notes [recencyNote] 738976 30
    ∧ "r" ∉ get_recent_notes [recencyNote] 738977 30 :=
  ⟨(recency_window_spec.2 recencyNote 738976 30 "r" (by decide)).1 (by decide),
   (recency_window_spec.2 recencyNote 738977 30 "r" (by decide)).2 (by decide)⟩

/-- C9: a present but unparsable `updated` string never fails: the note is
simply absent from the recency computation (removing it from the list leaves
the recency set unchanged), and neither its relevance score nor the link
expansion read the `updated` field at all. -/
theorem malformed_updated_harmless (pre post : List Note) (n : Note) (s : String)
    (now : Int) (days : Nat)
    (hval : n.updated = some (DateVal.str s)) (hbad : strptimeYMD s = none) :
    get_recent_notes (pre ++ n :: post) now days = get_recent_notes (pre ++ post) now days
    ∧ (∀ (u : Option DateVal) (terms : List String),
        score_note { n with updated := u } terms = score_note n terms)
    ∧ (∀ (u : Option DateVal) (seed_ids : Finset String) (hops : Nat),
        expand_links (pre ++ { n with updated := u } :: post) seed_ids hops
          = expand_links (pre ++ n :: post) seed_ids hops) := by
  refine ⟨?_, fun u terms => rfl, ?_⟩
  · have hq : recentQualifies (now - days) n = none :=
      recentQualifies_of_bad_parse hval hbad
    unfold get_recent_notes
    rw [List.filterMap_append, List.filterMap_append, List.filterMap_cons, hq]
  · intro u seed_ids hops
    unfold expand_links
    exact expandLoop_congr
      (fun key => targetsOf_middle pre post { n with updated := u } n rfl rfl key) hops
      seed_ids seed_ids

/-- C9, witness: the concrete note with `updated = "not-a-date"`. -/
theorem malformed_updated_harmless_witness :
    get_recent_notes [malformedNote, recencyNote] 738976 30
        = get_recent_notes [recencyNote] 738976 30
    ∧ score_note { malformedNote with updated := none } ["alignment"]
        = score_note malformedNote ["alignment"]
    ∧ expand_links [{ malformedNote with updated := none }, recencyNote] {"m"} 1
        = expand_links [malformedNote, recencyNote] {"m"} 1 :=
  ⟨(malformed_updated_harmless [] [recencyNote] malformedNote "not-a-date" 738976 30
      (by decide) (by decide)).1,
   (malformed_updated_harmless [] [recencyNote] malformedNote "not-a-date" 738976 30
      (by decide) (by decide)).2.1 none ["alignment"],
   (malformed_updated_harmless [] [recencyNote] malformedNote "not-a-date" 738976 30
      (by decide) (by decide)).2.2 none {"m"} 1⟩

/-- C10: every identifier in the recency set is the truthy (present and
non-empty) id of some loaded note, and a note without a truthy id
contributes nothing to the recency set however recent its update stamp. -/
theorem recent_ids_from_truthy_ids :
    (∀ (notes : List Note) (now : Int) (days : Nat) (s : String),
        s ∈ get_recent_notes notes now days → ∃ n ∈ notes, n.id = some s ∧ s ≠ "")
    ∧ (∀ (n : Note) (notes : List Note) (now : Int) (days : Nat), truthyId n = none →
        get_recent_notes (n :: notes) now days = get_recent_notes notes now days) := by
  constructor
  · intro notes now days s hmem
    rcases mem_get_recent_notes.mp hmem with ⟨n, hn, hid, -⟩
    exact ⟨n, hn, truthyId_eq_some.mp hid⟩
  · intro n notes now days h
    unfold get_recent_notes
    rw [List.filterMap_cons, recentQualifies_of_falsy_id h]

/-- C10, witness: the id-less note updated inside the window contributes
nothing, and the member `r` of a concrete recency set is a loaded truthy
id. -/
theorem recent_ids_from_truthy_ids_witness :
    (∃ n ∈ [recencyNote], n.id = some "r" ∧ "r" ≠ "")
    ∧ get_recent_notes [idlessRecentNote] 738976 30 = get_recent_notes [] 738976 30 :=
  ⟨recent_ids_from_truthy_ids.1 [recencyNote] 738976 30 "r" (by decide),
   recent_ids_from_truthy_ids.2 idlessRecentNote [] 738976 30 (by decide)⟩
